import Mathlib

/-!
Verification of the cgroups-rs resource-manager core against its
specification.  The Rust sources are shallowly embedded: pure functions
become Lean functions over `Nat`/`Int` (with explicit `% 2^64` where u64
overflow matters), strings become `List Char`, filesystem writes become
explicit write lists, and fallible code returns `Except`/`Option`.
-/

namespace CgroupsRs

/-- Manager-level error type, from `src/manager/error.rs`.  The wrapped
payloads of `Cgroupfs`/`SystemdCgroup`/`SystemdDbus` are irrelevant to the
claims and are collapsed. -/
inductive MgrError where
  | InvalidArgument
  | InvalidLinuxResource
  | Cgroupfs
  | SystemdCgroup
  | SystemdDbus
deriving DecidableEq, Repr

/-- Systemd-layer error type, from `src/systemd/error.rs`. -/
inductive SdError where
  | InvalidArgument
  | ObsoleteSystemd
  | CgroupsV1NotSupported
deriving DecidableEq, Repr

/-! ## Conversion layer (`src/manager/conv.rs`) -/

/-- `CPU_SHARES_V1_MAX` from `src/lib.rs`. -/
def CPU_SHARES_V1_MAX : Nat := 262144

/-- `CPU_WEIGHT_V2_MAX` from `src/lib.rs`. -/
def CPU_WEIGHT_V2_MAX : Nat := 10000

/-- `cpu_shares_to_cgroup_v2` from `src/manager/conv.rs`.  The u64 input
is a `Nat`; the arithmetic branch only runs for `2 < shares < 262144`, so
no u64 overflow is possible and no reduction mod 2^64 is needed. -/
def cpu_shares_to_cgroup_v2 (shares : Nat) : Nat :=
  if shares = 0 then 0
  else if shares ≤ 2 then 1
  else if shares ≥ CPU_SHARES_V1_MAX then CPU_WEIGHT_V2_MAX
  else (shares - 2) * 9999 / 262142 + 1

/-- `memory_swap_to_cgroup_v2` from `src/manager/conv.rs`.  Arguments in
source order: combined `memswap_limit` first, then `mem_limit`. -/
def memory_swap_to_cgroup_v2 (memswap_limit mem_limit : Int) :
    Except MgrError Int :=
  if mem_limit = -1 ∧ memswap_limit = 0 then .ok (-1)
  else if memswap_limit = -1 ∨ memswap_limit = 0 then .ok memswap_limit
  else if mem_limit = -1 then .ok memswap_limit
  else if mem_limit = 0 then .error .InvalidLinuxResource
  else if mem_limit < 0 then .error .InvalidLinuxResource
  else if memswap_limit < mem_limit then .error .InvalidLinuxResource
  else .ok (memswap_limit - mem_limit)

/-- The ordered case cascade for the memory+swap conversion exactly as
claim C4 states it, used as the refinement target for
`memory_swap_to_cgroup_v2`. -/
def memory_swap_to_cgroup_v2_spec (memswap_limit mem_limit : Int) :
    Except MgrError Int :=
  if mem_limit = -1 ∧ memswap_limit = 0 then .ok (-1)
  else if memswap_limit = -1 ∨ memswap_limit = 0 ∨ mem_limit = -1 then
    .ok memswap_limit
  else if mem_limit = 0 ∨ mem_limit < -1 ∨ memswap_limit < mem_limit then
    .error .InvalidLinuxResource
  else .ok (memswap_limit - mem_limit)

/-! ## FS manager: per-resource write models (`src/manager/fs.rs`) -/

/-- One write issued by the cpu controller on behalf of `set_cpu`. -/
inductive CpuWrite where
  | shares (v : Nat)
  | cfsQuota (v : Int)
  | cfsPeriod (v : Nat)
  | rtRuntime (v : Int)
  | rtPeriod (v : Nat)
deriving DecidableEq, Repr

/-- `FsManager::set_cpu` from `src/manager/fs.rs`, as the ordered list of
controller writes it performs.  `v2` is `self.v2()`; each `Option` field
mirrors the corresponding `LinuxCpu` accessor. -/
def fs_set_cpu (v2 : Bool) (shares : Option Nat) (quota : Option Int)
    (period : Option Nat) (rtRuntime : Option Int) (rtPeriod : Option Nat) :
    List CpuWrite :=
  (match shares with
   | some s =>
     let s' := if v2 then cpu_shares_to_cgroup_v2 s else s
     if s' ≠ 0 then [CpuWrite.shares s'] else []
   | none => []) ++
  (match quota with
   | some q => [CpuWrite.cfsQuota q]
   | none => []) ++
  (match period with
   | some p => [CpuWrite.cfsPeriod p]
   | none => []) ++
  (match rtRuntime with
   | some r => [CpuWrite.rtRuntime r]
   | none => []) ++
  (match rtPeriod with
   | some r => [CpuWrite.rtPeriod r]
   | none => [])

/-! ## Claim C2 -/

/-- C2 counterexample: the claim says `set` with `cpu.shares = 1024` under
cgroup v2 writes `cpu.weight = 40` and that 40 is the value of
`((1024−2)·9999)/262142 + 1`.  In fact that expression is 39, the code
computes 39, and the FS backend writes 39, never 40. -/
theorem C2_weight_40_counterexample :
    cpu_shares_to_cgroup_v2 1024 = 39 ∧
    (1024 - 2) * 9999 / 262142 + 1 = 39 ∧
    CpuWrite.shares 40 ∉
      fs_set_cpu true (some 1024) (some 100000) (some 100000) none none := by
  refine ⟨by decide, by decide, ?_⟩
  decide

/-- C2 (amended): on the FS backend under cgroup v2, `set` with
`cpu.shares = 1024`, `cpu.quota = 100000`, `cpu.period = 100000` writes
`cpu.weight = 39`, the value of `((1024−2)·9999)/262142 + 1` under integer
division, as computed by `cpu_shares_to_cgroup_v2 1024`. -/
theorem C2_set_cpu_shares_1024_writes_weight_39 :
    fs_set_cpu true (some 1024) (some 100000) (some 100000) none none =
      [CpuWrite.shares 39, CpuWrite.cfsQuota 100000,
       CpuWrite.cfsPeriod 100000] ∧
    cpu_shares_to_cgroup_v2 1024 = 39 ∧
    (1024 - 2) * 9999 / 262142 + 1 = 39 := by
  refine ⟨by decide, by decide, by decide⟩

/-! ## Claim C4 -/

/-- C4: `memory_swap_to_cgroup_v2` follows exactly the ordered case
cascade of the claim (returns −1 for `mem = −1, memswap = 0`; returns
`memswap` unchanged for `memswap ∈ {−1, 0}` or `mem = −1`; rejects
`mem = 0`, `mem < −1` and `memswap < mem` with `InvalidLinuxResource`;
otherwise returns `memswap − mem`), and for every successful call with
both inputs positive, `result + mem = memswap`. -/
theorem C4_memory_swap_to_cgroup_v2_cases :
    (∀ memswap mem : Int,
      memory_swap_to_cgroup_v2 memswap mem =
        memory_swap_to_cgroup_v2_spec memswap mem) ∧
    (∀ memswap mem r : Int, 0 < memswap → 0 < mem →
      memory_swap_to_cgroup_v2 memswap mem = .ok r → r + mem = memswap) := by
  constructor
  · intro memswap mem
    unfold memory_swap_to_cgroup_v2 memory_swap_to_cgroup_v2_spec
    split_ifs with h1 h2 h3 h4 h5 h6 h7 h8 h9 h10 h11 h12 h13 h14 <;>
      first
      | rfl
      | omega
  · intro memswap mem r hms hm h
    unfold memory_swap_to_cgroup_v2 at h
    split_ifs at h with h1 h2 h3 h4 h5 h6 <;>
      simp only [Except.ok.injEq] at h <;> omega

/-- C4 witness: the cascade agreement and the algebraic relation at the
concrete call `memory_swap_to_cgroup_v2 200 100 = ok 100`. -/
theorem C4_memory_swap_to_cgroup_v2_cases_witness :
    memory_swap_to_cgroup_v2 200 100 = memory_swap_to_cgroup_v2_spec 200 100 ∧
    (100 : Int) + 100 = 200 :=
  ⟨C4_memory_swap_to_cgroup_v2_cases.1 200 100,
   C4_memory_swap_to_cgroup_v2_cases.2 200 100 100 (by decide) (by decide)
     rfl⟩

/-! ## Claim C8 -/

/-- C8: `cpu_shares_to_cgroup_v2` maps 0 to 0, maps every `s ≥ 1` into
`[1, 10000]`, is monotone non-decreasing, and is constantly 10000 from
262144 on (in particular at 262144 itself). -/
theorem C8_cpu_shares_to_cgroup_v2_shape :
    cpu_shares_to_cgroup_v2 0 = 0 ∧
    (∀ s : Nat, 1 ≤ s →
      1 ≤ cpu_shares_to_cgroup_v2 s ∧ cpu_shares_to_cgroup_v2 s ≤ 10000) ∧
    (∀ a b : Nat, a ≤ b →
      cpu_shares_to_cgroup_v2 a ≤ cpu_shares_to_cgroup_v2 b) ∧
    (∀ s : Nat, 262144 ≤ s → cpu_shares_to_cgroup_v2 s = 10000) := by
  have hbound : ∀ s : Nat, ¬s = 0 → ¬s ≤ 2 → ¬s ≥ CPU_SHARES_V1_MAX →
      (s - 2) * 9999 / 262142 + 1 ≤ 9999 := by
    intro s _ _ h3
    have hs : s - 2 ≤ 262141 := by
      unfold CPU_SHARES_V1_MAX at h3; omega
    have : (s - 2) * 9999 ≤ 262141 * 9999 := Nat.mul_le_mul_right _ hs
    have hdiv : (s - 2) * 9999 / 262142 ≤ 262141 * 9999 / 262142 :=
      Nat.div_le_div_right this
    have : 262141 * 9999 / 262142 = 9998 := by norm_num
    omega
  have hval : ∀ s : Nat, 1 ≤ s →
      1 ≤ cpu_shares_to_cgroup_v2 s ∧ cpu_shares_to_cgroup_v2 s ≤ 10000 := by
    intro s hs
    unfold cpu_shares_to_cgroup_v2
    split_ifs with h1 h2 h3
    · omega
    · omega
    · unfold CPU_WEIGHT_V2_MAX; omega
    · have := hbound s h1 h2 h3
      omega
  refine ⟨by decide, hval, ?_, ?_⟩
  · intro a b hab
    unfold cpu_shares_to_cgroup_v2 CPU_SHARES_V1_MAX CPU_WEIGHT_V2_MAX
    split_ifs
    all_goals omega
  · intro s hs
    unfold cpu_shares_to_cgroup_v2 CPU_SHARES_V1_MAX CPU_WEIGHT_V2_MAX
    split_ifs <;> omega

/-- C8 witness: the bounds, monotonicity and saturation at concrete
inputs. -/
theorem C8_cpu_shares_to_cgroup_v2_shape_witness :
    (1 ≤ cpu_shares_to_cgroup_v2 5 ∧ cpu_shares_to_cgroup_v2 5 ≤ 10000) ∧
    cpu_shares_to_cgroup_v2 3 ≤ cpu_shares_to_cgroup_v2 7 ∧
    cpu_shares_to_cgroup_v2 262144 = 10000 :=
  ⟨C8_cpu_shares_to_cgroup_v2_shape.2.1 5 (by decide),
   C8_cpu_shares_to_cgroup_v2_shape.2.2.1 3 7 (by decide),
   C8_cpu_shares_to_cgroup_v2_shape.2.2.2 262144 (by decide)⟩

/-! ## Memory setters (`src/manager/fs.rs`) -/

/-- One write issued by the memory controller (`set_limit`,
`set_memswap_limit`, `set_soft_limit`). -/
inductive MemWrite where
  | memLimit (v : Int)
  | memSwapLimit (v : Int)
  | softLimit (v : Int)
deriving DecidableEq, Repr

/-- `FsManager::set_mem_and_memswap_v1` from `src/manager/fs.rs`, as the
ordered list of memory-controller writes.  `limit_actual` is the
`memory.limit_in_bytes` value the function reads from
`controller.memory_stat()` in its both-non-zero branch. -/
def set_mem_and_memswap_v1 (limit swap_limit limit_actual : Int) :
    List MemWrite :=
  let swap_limit := if limit = -1 ∧ swap_limit = 0 then -1 else swap_limit
  if limit ≠ 0 ∧ swap_limit ≠ 0 ∧
      (swap_limit = -1 ∨ limit_actual < swap_limit) then
    [MemWrite.memSwapLimit swap_limit, MemWrite.memLimit limit]
  else
    (if limit ≠ 0 then [MemWrite.memLimit limit] else []) ++
    (if swap_limit ≠ 0 then [MemWrite.memSwapLimit swap_limit] else [])

/-- `FsManager::set_memory_v2` from `src/manager/fs.rs`.  Inputs mirror
`linux_memory.limit()/swap()/reservation()` and the
`memory_stat().usage_in_bytes` u64 read; the result is the list of writes
performed before returning, paired with the error if the call failed. -/
def set_memory_v2 (limit swap reservation : Option Int) (usage : Nat) :
    List MemWrite × Option MgrError :=
  if reservation = none ∧ limit = none ∧ swap = none then ([], none)
  else
    let mem_limit := limit.getD 0
    let memswap_limit := swap.getD 0
    if mem_limit ≤ 0 ∧ memswap_limit ≤ 0 then ([], none)
    else if 0 < memswap_limit ∧ memswap_limit.toNat ≤ usage then
      ([], some .InvalidLinuxResource)
    else if 0 < mem_limit ∧ mem_limit.toNat ≤ usage then
      ([], some .InvalidLinuxResource)
    else
      match memory_swap_to_cgroup_v2 memswap_limit mem_limit with
      | .error e => ([], some e)
      | .ok swap_limit =>
        ([MemWrite.memSwapLimit swap_limit] ++
         (if mem_limit ≠ 0 then [MemWrite.memLimit mem_limit] else []) ++
         (match reservation with
          | some r => [MemWrite.softLimit r]
          | none => []), none)

/-! ## Claim C3 -/

/-- The swap limit after the `limit = −1, swap = 0` replacement at the
top of `set_mem_and_memswap_v1`. -/
def effective_swap_v1 (limit swap_limit : Int) : Int :=
  if limit = -1 ∧ swap_limit = 0 then -1 else swap_limit

/-- C3: the v1 memory path obeys the write-ordering state machine: a
`limit = −1, swap = 0` input turns the swap limit into −1; with both
values non-zero and (`swap = −1` or the current `memory.limit_in_bytes`
below the new swap limit) the memswap limit is written strictly before
the memory limit; otherwise the memory limit is written first and the
memswap limit after; and a zero value is never written. -/
theorem C3_set_mem_and_memswap_v1_ordering
    (limit swap_limit limit_actual : Int)
    (sw : Int) (hsw : sw = effective_swap_v1 limit swap_limit) :
    (limit = -1 ∧ swap_limit = 0 →
      set_mem_and_memswap_v1 limit swap_limit limit_actual =
        [MemWrite.memSwapLimit (-1), MemWrite.memLimit (-1)]) ∧
    (limit ≠ 0 → sw ≠ 0 → sw = -1 ∨ limit_actual < sw →
      set_mem_and_memswap_v1 limit swap_limit limit_actual =
        [MemWrite.memSwapLimit sw, MemWrite.memLimit limit]) ∧
    (¬(limit ≠ 0 ∧ sw ≠ 0 ∧ (sw = -1 ∨ limit_actual < sw)) →
      set_mem_and_memswap_v1 limit swap_limit limit_actual =
        (if limit ≠ 0 then [MemWrite.memLimit limit] else []) ++
        (if sw ≠ 0 then [MemWrite.memSwapLimit sw] else [])) ∧
    (MemWrite.memLimit 0 ∉ set_mem_and_memswap_v1 limit swap_limit limit_actual ∧
     MemWrite.memSwapLimit 0 ∉
       set_mem_and_memswap_v1 limit swap_limit limit_actual) := by
  subst hsw
  refine ⟨?_, ?_, ?_, ?_⟩
  · intro h
    simp only [set_mem_and_memswap_v1, h]
    split_ifs <;> simp_all
  · intro h1 h2 h3
    simp only [set_mem_and_memswap_v1, effective_swap_v1] at *
    split_ifs <;> simp_all
  · intro h
    simp only [set_mem_and_memswap_v1, effective_swap_v1] at *
    split_ifs <;> simp_all
  · constructor <;>
      · simp only [set_mem_and_memswap_v1]
        split_ifs <;> simp_all <;> omega

/-- C3 witness: the spec's contracting scenario — existing limit 1 GiB,
new limit and swap both 512 MiB — writes the memory limit first, then the
memswap limit. -/
theorem C3_set_mem_and_memswap_v1_ordering_witness :
    set_mem_and_memswap_v1 536870912 536870912 1073741824 =
      [MemWrite.memLimit 536870912, MemWrite.memSwapLimit 536870912] := by
  have h :=
    (C3_set_mem_and_memswap_v1_ordering 536870912 536870912 1073741824
      (effective_swap_v1 536870912 536870912) rfl).2.2.1 (by decide)
  simpa using h

/-! ## Claim C5 -/

/-- C5: the v2 memory path rejects with `InvalidLinuxResource`, before
performing any write, whenever the requested memory+swap limit (or memory
limit) is positive but does not exceed the current usage; and the
concrete input `memory{limit = 1073741824, swap = 536870912}` is rejected
with `InvalidLinuxResource` (with no write) because swap < limit. -/
theorem C5_set_memory_v2_rejects :
    (∀ (limit swap reservation : Option Int) (usage : Nat),
      (0 < swap.getD 0 ∧ (swap.getD 0).toNat ≤ usage) ∨
        (0 < limit.getD 0 ∧ (limit.getD 0).toNat ≤ usage) →
      set_memory_v2 limit swap reservation usage =
        ([], some .InvalidLinuxResource)) ∧
    (∀ usage : Nat, usage < 536870912 →
      set_memory_v2 (some 1073741824) (some 536870912) none usage =
        ([], some .InvalidLinuxResource)) := by
  constructor
  · intro limit swap reservation usage h
    rcases limit with _ | lv <;> rcases swap with _ | sv <;>
      simp only [Option.getD_none, Option.getD_some] at h <;>
      simp only [set_memory_v2, Option.getD_none, Option.getD_some] <;>
      rcases h with ⟨h1, h2⟩ | ⟨h1, h2⟩ <;>
      split_ifs <;>
      first
      | rfl
      | (exfalso; omega)
      | (exfalso; simp_all)
  · intro usage h
    have hx : ¬((536870912 : Int).toNat ≤ usage) := by omega
    have hy : ¬((1073741824 : Int).toNat ≤ usage) := by omega
    norm_num [set_memory_v2, memory_swap_to_cgroup_v2, hx, hy]
    intro hc
    exact absurd hc (by simp)

/-- C5 witness: a swap limit of 5 bytes with 10 bytes already in use is
rejected, and the spec's concrete swap-below-limit input is rejected at
zero usage, both with no write. -/
theorem C5_set_memory_v2_rejects_witness :
    set_memory_v2 none (some 5) none 10 =
      ([], some .InvalidLinuxResource) ∧
    set_memory_v2 (some 1073741824) (some 536870912) none 0 =
      ([], some .InvalidLinuxResource) :=
  ⟨C5_set_memory_v2_rejects.1 none (some 5) none 10 (Or.inl (by decide)),
   C5_set_memory_v2_rejects.2 0 (by decide)⟩

/-! ## Topdown cpuset enablement (`src/manager/fs.rs`) -/

/-- `Path::ancestors()` over a path given as its list of components: the
path itself first, then each parent, ending with the empty path.  Fueled
by the component count so the recursion is structural (and reducible by
the kernel). -/
def pathAncestorsAux : Nat → List String → List (List String)
  | 0, _ => [[]]
  | f + 1, p =>
    match p with
    | [] => [[]]
    | _ :: _ => p :: pathAncestorsAux f p.dropLast

/-- `Path::ancestors()` with the fuel instantiated. -/
def pathAncestors (p : List String) : List (List String) :=
  pathAncestorsAux p.length p

/-- `FsManager::set_controller_topdown` from `src/manager/fs.rs`, as the
ordered list of cgroup paths to which the callback is applied.  `root` is
the root controller path, `target` the controller path of `self.cgroup`.
The source walks `target`'s ancestors, pushing each onto a stack until it
meets `root` (which is not pushed), then pops the stack and applies the
callback to the cgroup at each popped path. -/
def set_controller_topdown (root target : List String) :
    List (List String) :=
  ((pathAncestors target).takeWhile (fun a => decide (a ≠ root))).reverse

/-- `FsManager::enable_cpus_topdown` from `src/manager/fs.rs`: the list
of cgroup paths whose `cpuset.cpus` receives `set_cpus(cpus)`, in write
order.  An empty cpus string short-circuits to no writes. -/
def enable_cpus_topdown (cpus : String) (root target : List String) :
    List (List String) :=
  if cpus = "" then [] else set_controller_topdown root target

theorem pathAncestorsAux_nil (f : Nat) : pathAncestorsAux f [] = [[]] := by
  cases f <;> rfl

theorem pathAncestorsAux_fuel (f : Nat) :
    ∀ (g : Nat) (p : List String), p.length ≤ f → p.length ≤ g →
      pathAncestorsAux f p = pathAncestorsAux g p := by
  induction f with
  | zero =>
    intro g p hf _
    have : p = [] := List.length_eq_zero.mp (Nat.le_zero.mp hf)
    subst this
    rw [pathAncestorsAux_nil, pathAncestorsAux_nil]
  | succ f ih =>
    intro g p hf hg
    match p with
    | [] => rw [pathAncestorsAux_nil, pathAncestorsAux_nil]
    | x :: xs =>
      match g with
      | 0 => simp at hg
      | g + 1 =>
        show (x :: xs) :: pathAncestorsAux f (x :: xs).dropLast =
          (x :: xs) :: pathAncestorsAux g (x :: xs).dropLast
        have hlen : (x :: xs).dropLast.length = xs.length := by
          simp [List.length_dropLast]
        rw [ih g (x :: xs).dropLast (by simp at hf; omega)
          (by simp at hg; omega)]

theorem pathAncestors_cons (p : List String) (hp : p ≠ []) :
    pathAncestors p = p :: pathAncestors p.dropLast := by
  match p with
  | x :: xs =>
    show pathAncestorsAux (xs.length + 1) (x :: xs) = _
    have : pathAncestorsAux xs.length (x :: xs).dropLast =
        pathAncestors (x :: xs).dropLast :=
      pathAncestorsAux_fuel _ _ _ (by simp [List.length_dropLast])
        (Nat.le_refl _)
    simpa [pathAncestorsAux] using this

/-- The stack built by `set_controller_topdown` before it is popped:
every strict extension of `root` along `rest`, longest first. -/
theorem topdown_stack (root : List String) (rest : List String) :
    (pathAncestors (root ++ rest)).takeWhile (fun a => decide (a ≠ root)) =
      (List.range rest.length).reverse.map
        (fun k => root ++ rest.take (k + 1)) := by
  induction rest using List.reverseRecOn with
  | nil =>
    rcases root.eq_nil_or_concat with h | ⟨ys, y, h⟩
    · subst h
      rfl
    · rw [List.append_nil, pathAncestors_cons root (by simp [h])]
      simp
  | append_singleton ys y ih =>
    have hcons : pathAncestors (root ++ (ys ++ [y])) =
        (root ++ (ys ++ [y])) :: pathAncestors (root ++ ys) := by
      have h1 : root ++ (ys ++ [y]) = (root ++ ys) ++ [y] := by
        rw [List.append_assoc]
      rw [h1, pathAncestors_cons _ (by simp), List.dropLast_concat]
    have hne : root ++ (ys ++ [y]) ≠ root := by
      intro hcontra
      have := congrArg List.length hcontra
      simp at this
    rw [hcons, List.takeWhile_cons, if_pos (by simp [hne]), ih]
    rw [List.length_append, List.length_singleton, List.range_succ,
      List.reverse_append]
    simp only [List.reverse_singleton, List.singleton_append, List.map_cons]
    congr 1
    · rw [List.take_of_length_le (by simp)]
    · apply List.map_congr_left
      intro k hk
      rw [List.mem_reverse, List.mem_range] at hk
      rw [List.take_append_of_le_length (by omega)]

/-! ## Claim C1 -/

/-- C1 counterexample: for the target `root/x/y/z` the claim says
`enable_cpus_topdown` writes only `root/x` and `root/x/y`; in fact
`Path::ancestors()` yields the target path itself first, so the target
`root/x/y/z` is pushed too and is written last (the repository's own
`test_enable_cpus_topdown` asserts the target's `cpuset.cpus` is
updated). -/
theorem C1_topdown_excludes_target_counterexample :
    enable_cpus_topdown "0-1" ["root"] ["root", "x", "y", "z"] =
      [["root", "x"], ["root", "x", "y"], ["root", "x", "y", "z"]] ∧
    enable_cpus_topdown "0-1" ["root"] ["root", "x", "y", "z"] ≠
      [["root", "x"], ["root", "x", "y"]] := by
  constructor <;> decide

/-- C1 (amended): for every non-empty cpus string, `enable_cpus_topdown`
applies `set_cpus` top-down to every strict extension of the hierarchy
root along the target path — the intermediate cgroups in parent-before-
child order followed by the target itself — and never to the root: for
target `root ++ rest` the write list is exactly
`root ++ rest.take 1, root ++ rest.take 2, …, root ++ rest`. -/
theorem C1_enable_cpus_topdown_order (root rest : List String)
    (cpus : String) (_hr : rest ≠ []) (hc : cpus ≠ "") :
    enable_cpus_topdown cpus root (root ++ rest) =
      (List.range rest.length).map (fun k => root ++ rest.take (k + 1)) := by
  rw [enable_cpus_topdown, if_neg hc, set_controller_topdown,
    topdown_stack, List.map_reverse, List.reverse_reverse]

/-- C1 witness: the amended order at the concrete target `r/a/b`. -/
theorem C1_enable_cpus_topdown_order_witness :
    enable_cpus_topdown "0-1" ["r"] (["r"] ++ ["a", "b"]) =
      [["r", "a"], ["r", "a", "b"]] :=
  (C1_enable_cpus_topdown_order ["r"] ["a", "b"] "0-1" (by decide)
    (by decide)).trans (by decide)

/-! ## Systemd manager CPU properties (`src/manager/systemd.rs`) -/

/-- `DEFAULT_CPU_QUOTA_PERIOD` from `src/manager/systemd.rs`. -/
def DEFAULT_CPU_QUOTA_PERIOD : Nat := 100000

/-- `CPU_SYSTEMD_VERSION` from `src/systemd/mod.rs`: minimum systemd
version for the `CPUQuotaPeriodUSec` property. -/
def CPU_SYSTEMD_VERSION : Nat := 242

/-- 2^64, the u64 wrap-around modulus. -/
def U64_SIZE : Nat := 18446744073709551616

/-- `u64::MAX` (= `USEC_INFINITY` in systemd). -/
def U64_MAX : Nat := 18446744073709551615

/-- The `CPUQuotaPerSecUSec` value computed inside
`SystemdManager::set_cpu` (`src/manager/systemd.rs`): `u64::MAX` unless
`quota > 0`, else `quota · 1_000_000 / period` (u64 arithmetic, wrapping
mod 2^64; `period` defaulting to `DEFAULT_CPU_QUOTA_PERIOD` when 0)
rounded up to the next multiple of 10_000 when not already one. -/
def cpu_quota_per_sec_value (period : Nat) (quota : Int) : Nat :=
  if 0 < quota then
    let per := if period = 0 then DEFAULT_CPU_QUOTA_PERIOD else period
    let q := quota.toNat * 1000000 % U64_SIZE / per
    if q % 10000 ≠ 0 then (q / 10000 + 1) * 10000 % U64_SIZE else q
  else U64_MAX

/-- `SystemdManager::set_cpu` from `src/manager/systemd.rs`, as the list
of `(property name, u64 value)` pairs it appends to `props`.
`cpu::shares`, `cpu::period` and `cpu::quota` from `src/systemd/cpu.rs`
are inlined: `period` fails with `ObsoleteSystemd` below systemd version
242, the other two never fail. -/
def systemd_set_cpu (v2 : Bool) (version : Nat) (shares : Option Nat)
    (periodOpt : Option Nat) (quotaOpt : Option Int) :
    Except SdError (List (String × Nat)) :=
  let props0 :=
    match shares with
    | some s =>
      let s' := if v2 then cpu_shares_to_cgroup_v2 s else s
      [((if v2 then "CPUWeight" else "CPUShares"), s')]
    | none => []
  let period := periodOpt.getD 0
  let quota := quotaOpt.getD 0
  let step1 : Except SdError (List (String × Nat)) :=
    if period ≠ 0 then
      if version < CPU_SYSTEMD_VERSION then .error .ObsoleteSystemd
      else .ok (props0 ++ [("CPUQuotaPeriodUSec", period)])
    else .ok props0
  step1.bind fun props1 =>
    if period ≠ 0 ∨ quota ≠ 0 then
      .ok (props1 ++
        [("CPUQuotaPerSecUSec", cpu_quota_per_sec_value period quota)])
    else .ok props1

/-- When `quota·1_000_000` fits in u64, the wrapping computation agrees
with the mathematical round-up-to-10_000 of `quota·1_000_000/period`. -/
theorem cpu_quota_per_sec_value_no_overflow (M per : Nat)
    (hM : M < U64_SIZE) (hper : 0 < per) (h1 : per = 1 → M % 10000 = 0) :
    (let q := M % U64_SIZE / per
     if q % 10000 ≠ 0 then (q / 10000 + 1) * 10000 % U64_SIZE else q) =
      (M / per + 9999) / 10000 * 10000 := by
  simp only [U64_SIZE] at *
  rw [Nat.mod_eq_of_lt hM]
  rcases Nat.lt_or_ge per 2 with h2 | h2
  · have hper1 : per = 1 := by omega
    subst hper1
    have := h1 rfl
    simp only [Nat.div_one]
    split_ifs with h3 <;> omega
  · have hq2 : M / per ≤ M / 2 := Nat.div_le_div_left h2 (by norm_num)
    split_ifs with h3 <;> omega

/-- Whenever `set_cpu` pushes the quota property (period or quota
non-zero, and the version check passes), the resulting property list
carries `CPUQuotaPerSecUSec = cpu_quota_per_sec_value period quota`. -/
theorem systemd_set_cpu_quota_prop (v2 : Bool) (version : Nat)
    (shares : Option Nat) (periodOpt : Option Nat) (quotaOpt : Option Int)
    (hver : periodOpt.getD 0 ≠ 0 → CPU_SYSTEMD_VERSION ≤ version)
    (hnz : periodOpt.getD 0 ≠ 0 ∨ quotaOpt.getD 0 ≠ 0) :
    ∃ props,
      systemd_set_cpu v2 version shares periodOpt quotaOpt = .ok props ∧
      props.lookup "CPUQuotaPerSecUSec" =
        some (cpu_quota_per_sec_value (periodOpt.getD 0)
          (quotaOpt.getD 0)) := by
  simp only [systemd_set_cpu]
  by_cases hp : periodOpt.getD 0 ≠ 0
  · rw [if_pos hp, if_neg (by have := hver hp; omega)]
    simp only [Except.bind]
    rw [if_pos (Or.inl hp)]
    refine ⟨_, rfl, ?_⟩
    cases shares <;> cases v2 <;> simp [List.lookup]
  · rw [if_neg hp]
    simp only [Except.bind]
    rw [if_pos hnz]
    refine ⟨_, rfl, ?_⟩
    cases shares <;> cases v2 <;> simp [List.lookup]

/-! ## Claim C7 -/

/-- C7 counterexample: at `quota = i64::MAX` (9223372036854775807) with
`period = 100000` and systemd 242, `quota·1_000_000` wraps mod 2^64, so
the property is 184467440740000, not the claimed mathematical
`quota·1_000_000/period` rounded up to the next multiple of 10_000
(92233720368547760000, which does not even fit in u64). -/
theorem C7_quota_wrap_counterexample :
    systemd_set_cpu true 242 none (some 100000)
        (some 9223372036854775807) =
      .ok [("CPUQuotaPeriodUSec", 100000),
           ("CPUQuotaPerSecUSec", 184467440740000)] ∧
    (184467440740000 : Nat) ≠
      (9223372036854775807 * 1000000 / 100000 + 9999) / 10000 * 10000 := by
  constructor
  · rfl
  · decide

/-- C7 (amended): in `SystemdManager::set` with the version check
satisfied, when `cpu.quota > 0` — provided `quota·1_000_000` fits in u64
— the `CPUQuotaPerSecUSec` property equals `quota·1_000_000/period`
rounded up to the next multiple of 10_000 µs, with `period` defaulting
to 100_000 when 0/absent; when `quota ≤ 0` (and period or quota is
non-zero) the property is `u64::MAX`; and `quota = 50000` with
`period = 100000` yields exactly 500000. -/
theorem C7_cpu_quota_per_sec (v2 : Bool) (version : Nat)
    (shares : Option Nat) (periodOpt : Option Nat) (quotaOpt : Option Int) :
    (∀ quota : Int, 0 < quota → quota.toNat * 1000000 < U64_SIZE →
      ∀ period : Nat,
        cpu_quota_per_sec_value period quota =
          (quota.toNat * 1000000 / (if period = 0 then 100000 else period)
            + 9999) / 10000 * 10000) ∧
    (∀ (quota : Int) (period : Nat), quota ≤ 0 →
      cpu_quota_per_sec_value period quota = U64_MAX) ∧
    cpu_quota_per_sec_value 100000 50000 = 500000 ∧
    ((periodOpt.getD 0 ≠ 0 → CPU_SYSTEMD_VERSION ≤ version) →
      (periodOpt.getD 0 ≠ 0 ∨ quotaOpt.getD 0 ≠ 0) →
      ∃ props,
        systemd_set_cpu v2 version shares periodOpt quotaOpt = .ok props ∧
        props.lookup "CPUQuotaPerSecUSec" =
          some (cpu_quota_per_sec_value (periodOpt.getD 0)
            (quotaOpt.getD 0))) := by
  refine ⟨?_, ?_, by decide, systemd_set_cpu_quota_prop _ _ _ _ _⟩
  · intro quota hq hM period
    rw [cpu_quota_per_sec_value, if_pos hq]
    refine cpu_quota_per_sec_value_no_overflow _ _ hM ?_ ?_
    · unfold DEFAULT_CPU_QUOTA_PERIOD
      split_ifs <;> omega
    · intro h1
      unfold DEFAULT_CPU_QUOTA_PERIOD at h1
      split_ifs at h1 with h2
      · omega
      · subst h1
        omega
  · intro quota period hq
    rw [cpu_quota_per_sec_value, if_neg (by omega)]

/-- C7 witness: the concrete 50% quota — `quota = 50000`,
`period = 100000`, systemd 250 — produces property value 500000; and a
non-positive quota with a period set produces `u64::MAX`. -/
theorem C7_cpu_quota_per_sec_witness :
    cpu_quota_per_sec_value 100000 50000 =
      (Int.toNat 50000 * 1000000 / (if (100000 : Nat) = 0 then 100000
        else 100000) + 9999) / 10000 * 10000 ∧
    cpu_quota_per_sec_value 100000 (-1) = U64_MAX ∧
    (∃ props,
      systemd_set_cpu true 250 none (some 100000) (some 50000) =
        .ok props ∧
      props.lookup "CPUQuotaPerSecUSec" =
        some (cpu_quota_per_sec_value ((some (100000 : Nat)).getD 0)
          ((some (50000 : Int)).getD 0))) :=
  ⟨(C7_cpu_quota_per_sec true 250 none (some 100000) (some 50000)).1
      50000 (by decide) (by decide) 100000,
   (C7_cpu_quota_per_sec true 250 none (some 100000) (some 50000)).2.1
      (-1) 100000 (by decide),
   (C7_cpu_quota_per_sec true 250 none (some 100000) (some 50000)).2.2.2
      (fun _ => by decide) (Or.inl (by decide))⟩

/-! ## String primitives

Rust strings are embedded as `List Char`; the std helpers the sources use
(`split`, `splitn`, `trim_end_matches`, `ends_with`, `contains`, numeric
`parse`) are modelled below. -/

/-- Rust `str::split(c)`: `n` separator occurrences yield `n+1` (possibly
empty) pieces. -/
def splitOnChar (c : Char) : List Char → List (List Char)
  | [] => [[]]
  | x :: xs =>
    if x = c then [] :: splitOnChar c xs
    else
      match splitOnChar c xs with
      | [] => [[x]]
      | p :: ps => (x :: p) :: ps

theorem splitOnChar_ne_nil (c : Char) (l : List Char) :
    splitOnChar c l ≠ [] := by
  induction l with
  | nil => simp [splitOnChar]
  | cons x xs ih =>
    simp only [splitOnChar]
    split_ifs
    · simp
    · match h : splitOnChar c xs with
      | [] => exact absurd h ih
      | p :: ps => simp

/-- Splitting a separator-free string returns it whole. -/
theorem splitOnChar_of_not_mem (c : Char) (l : List Char) (h : c ∉ l) :
    splitOnChar c l = [l] := by
  induction l with
  | nil => rfl
  | cons x xs ih =>
    simp only [List.mem_cons, not_or] at h
    have hx : ¬(x = c) := fun he => h.1 he.symm
    simp only [splitOnChar, if_neg hx, ih h.2]

/-- Splitting peels off a separator-free head piece. -/
theorem splitOnChar_append (c : Char) (p rest : List Char) (hp : c ∉ p) :
    splitOnChar c (p ++ c :: rest) = p :: splitOnChar c rest := by
  induction p with
  | nil => simp [splitOnChar]
  | cons x xs ih =>
    simp only [List.mem_cons, not_or] at hp
    have hx : ¬(x = c) := fun he => hp.1 he.symm
    simp only [List.cons_append, splitOnChar, List.append_eq, if_neg hx,
      ih hp.2]

/-- Rust `str::trim_end_matches(pat)`: repeatedly strip the suffix.
Fueled by the string length so the recursion is structural. -/
def trimEndMatchesAux (pat : List Char) : Nat → List Char → List Char
  | 0, l => l
  | f + 1, l =>
    if pat ≠ [] ∧ pat.isSuffixOf l then
      trimEndMatchesAux pat f (l.take (l.length - pat.length))
    else l

/-- Rust `str::trim_end_matches(pat)` with the fuel instantiated. -/
def trimEndMatches (pat l : List Char) : List Char :=
  trimEndMatchesAux pat l.length l

/-! ## Systemd path algebra (`src/systemd/utils.rs`) -/

/-- `SLICE_SUFFIX` (".slice") from `src/systemd/mod.rs`. -/
def SLICE_SUFFIX : List Char := ['.', 's', 'l', 'i', 'c', 'e']

/-- The `for sub_slice in name.split('-')` loop body of `expand_slice`:
threads `slice_path` and the growing `pfx` ("prefix" accumulator in the
source), failing on an empty token. -/
def expandSliceLoop (slicePath pfx : List Char) :
    List (List Char) → Except SdError (List Char)
  | [] => .ok slicePath
  | sub :: rest =>
    if sub = [] then .error .InvalidArgument
    else
      expandSliceLoop (slicePath ++ '/' :: (pfx ++ sub ++ SLICE_SUFFIX))
        (pfx ++ sub ++ ['-']) rest

/-- `expand_slice` from `src/systemd/utils.rs`. -/
def expand_slice (slice : List Char) : Except SdError (List Char) :=
  if ¬ SLICE_SUFFIX.isSuffixOf slice ∨
      slice.length < SLICE_SUFFIX.length then
    .error .InvalidArgument
  else if slice.contains '/' then .error .InvalidArgument
  else
    let name := trimEndMatches SLICE_SUFFIX slice
    if name = ['-'] then .ok []
    else
      match expandSliceLoop [] [] (splitOnChar '-' name) with
      | .error e => .error e
      | .ok slicePath => .ok (slicePath.drop 1)
        -- `slice_path.remove(0)`: a successful loop output on the
        -- non-empty token list always starts with '/'

theorem expandSliceLoop_err (ts : List (List Char)) (hmem : [] ∈ ts) :
    ∀ slicePath pfx, expandSliceLoop slicePath pfx ts =
      .error .InvalidArgument := by
  induction ts with
  | nil => cases hmem
  | cons t rest ih =>
    intro slicePath pfx
    rcases List.mem_cons.mp hmem with h | h
    · simp [expandSliceLoop, h.symm]
    · simp only [expandSliceLoop]
      split_ifs
      · rfl
      · exact ih h _ _

/-! ## Claim C9 -/

/-- C9: `expand_slice` maps "a-b-c.slice" to
"a.slice/a-b.slice/a-b-c.slice" and "-.slice" to ""; it fails with
`InvalidArgument` for every input that does not end in ".slice" or whose
length is at most 6 (i.e. is just ".slice"), for every input containing
'/', and for every input whose ".slice"-trimmed name is not "-" yet has
an empty token between hyphens. -/
theorem C9_expand_slice :
    expand_slice (String.toList "a-b-c.slice") =
      .ok (String.toList "a.slice/a-b.slice/a-b-c.slice") ∧
    expand_slice (String.toList "-.slice") = .ok [] ∧
    (∀ s : List Char,
      ¬ SLICE_SUFFIX.isSuffixOf s ∨ s.length ≤ 6 →
      expand_slice s = .error .InvalidArgument) ∧
    (∀ s : List Char, '/' ∈ s →
      expand_slice s = .error .InvalidArgument) ∧
    (∀ s : List Char,
      trimEndMatches SLICE_SUFFIX s ≠ ['-'] →
      [] ∈ splitOnChar '-' (trimEndMatches SLICE_SUFFIX s) →
      expand_slice s = .error .InvalidArgument) := by
  refine ⟨rfl, rfl, ?_, ?_, ?_⟩
  · intro s h
    by_cases h1 : ¬ SLICE_SUFFIX.isSuffixOf s ∨
        s.length < SLICE_SUFFIX.length
    · rw [expand_slice, if_pos h1]
    · push_neg at h1
      rcases h with h | h
      · exact absurd h1.1 (fun hb => h hb)
      · -- ends with ".slice" and length ≤ 6 forces s = ".slice"
        have hsuf : SLICE_SUFFIX <:+ s := by
          have := h1.1
          rwa [List.isSuffixOf_iff_suffix] at this
        obtain ⟨t, ht⟩ := hsuf
        have hlen := congrArg List.length ht
        simp only [List.length_append] at hlen
        have : t = [] := by
          have : t.length = 0 := by
            simp only [SLICE_SUFFIX, List.length_cons] at hlen ⊢
            omega
          exact List.length_eq_zero.mp this
        subst this
        simp only [List.nil_append] at ht
        subst ht
        rfl
  · intro s h
    by_cases h1 : ¬ SLICE_SUFFIX.isSuffixOf s ∨
        s.length < SLICE_SUFFIX.length
    · rw [expand_slice, if_pos h1]
    · rw [expand_slice, if_neg h1, if_pos (List.elem_iff.mpr h)]
  · intro s hname hmem
    by_cases h1 : ¬ SLICE_SUFFIX.isSuffixOf s ∨
        s.length < SLICE_SUFFIX.length
    · rw [expand_slice, if_pos h1]
    · by_cases h2 : s.contains '/'
      · rw [expand_slice, if_neg h1, if_pos h2]
      · rw [expand_slice, if_neg h1, if_neg h2]
        simp only [if_neg hname, expandSliceLoop_err _ hmem]

/-- C9 witness: the error cases at concrete inputs — the spec's
"invalid-slice" (no ".slice" suffix), a '/'-containing name, and an
empty token between hyphens. -/
theorem C9_expand_slice_witness :
    expand_slice (String.toList "invalid-slice") =
      .error .InvalidArgument ∧
    expand_slice (String.toList "a/b.slice") = .error .InvalidArgument ∧
    expand_slice (String.toList "a--b.slice") = .error .InvalidArgument :=
  ⟨C9_expand_slice.2.2.1 _ (Or.inl (by decide)),
   C9_expand_slice.2.2.2.1 _ (by decide),
   C9_expand_slice.2.2.2.2 _ (by decide) (by decide)⟩

/-! ## Mountinfo parsing (`src/manager/fs.rs`) -/

/-- Rust `str::splitn(2, sep)` in split-or-not form: the pieces before
and after the first occurrence of `sep`, or `none` when `sep` does not
occur (a single piece). -/
def splitOnceOn (sep : List Char) :
    List Char → Option (List Char × List Char)
  | [] => if sep.isPrefixOf [] then some ([], []) else none
  | x :: xs =>
    if sep.isPrefixOf (x :: xs) then some ([], (x :: xs).drop sep.length)
    else (splitOnceOn sep xs).map fun q => (x :: q.1, q.2)

/-- Rust `str::lines()`: split on '\n', drop the trailing empty piece
left by a final newline, and strip one trailing '\r' from each line. -/
def rustLines (content : List Char) : List (List Char) :=
  let pieces := splitOnChar '\n' content
  let pieces :=
    match pieces.getLast? with
    | some [] => pieces.dropLast
    | _ => pieces
  pieces.map fun l => if l.getLast? = some '\r' then l.dropLast else l

/-- The `" - "` bisector of `/proc/self/mountinfo` lines. -/
def MOUNTINFO_SEP : List Char := [' ', '-', ' ']

/-- The per-line body of `parse_cgroup_mountinfo` (`src/manager/fs.rs`).
A `none` result models a panic: `parts[1]` when the line has no `" - "`,
or `part1[4]` when the left half has fewer than five fields.  The mounts
map is an association list with `HashMap::insert` overwrite semantics. -/
def parse_mountinfo_line (paths : List (List Char))
    (mounts : List (List Char × List Char)) (line : List Char) :
    Option (List (List Char × List Char)) :=
  match splitOnceOn MOUNTINFO_SEP line with
  | none => none
  | some (left, right) =>
    let part1 := splitOnChar ' ' left
    let part2 := splitOnChar ' ' right
    if part2.length ≠ 3 then some mounts
    else
      let fsType := part2.getD 0 []
      if fsType ≠ String.toList "cgroup" ∧
          fsType ≠ String.toList "cgroup2" then some mounts
      else
        (splitOnChar ',' (part2.getD 2 [])).foldlM
          (fun acc opt =>
            if opt ∈ paths then
              match part1.get? 4 with
              | some mountpoint =>
                some ((acc.filter fun kv => kv.1 != opt) ++
                  [(opt, mountpoint)])
              | none => none
            else some acc)
          mounts

/-- `parse_cgroup_mountinfo` from `src/manager/fs.rs`, over the file
content and the subsystem names present in `paths`.  `none` models a
panic. -/
def parse_cgroup_mountinfo (content : List Char)
    (paths : List (List Char)) : Option (List (List Char × List Char)) :=
  (rustLines content).foldlM (parse_mountinfo_line paths) []

theorem splitOnceOn_eq_none (sep l : List Char) (h : ¬ sep <:+: l) :
    splitOnceOn sep l = none := by
  induction l with
  | nil =>
    have hpre : ¬ sep.isPrefixOf ([] : List Char) := fun hb =>
      h (List.isPrefixOf_iff_prefix.mp hb).isInfix
    simp [splitOnceOn, hpre]
  | cons x xs ih =>
    have h1 : ¬ sep.isPrefixOf (x :: xs) := fun hb =>
      h (List.isPrefixOf_iff_prefix.mp hb).isInfix
    have h2 : ¬ sep <:+: xs := fun hi => h (List.infix_cons hi)
    rw [splitOnceOn, if_neg h1, ih h2]
    rfl

theorem mountinfo_fold_none (paths : List (List Char)) :
    ∀ (ls : List (List Char)) (acc : List (List Char × List Char)),
      (∃ line ∈ ls, ¬ MOUNTINFO_SEP <:+: line) →
      ls.foldlM (parse_mountinfo_line paths) acc = none := by
  intro ls
  induction ls with
  | nil =>
    intro acc h
    obtain ⟨l, hl, _⟩ := h
    cases hl
  | cons l ls ih =>
    intro acc h
    rw [List.foldlM_cons]
    obtain ⟨line, hmem, hsep⟩ := h
    rcases List.mem_cons.mp hmem with rfl | hmem'
    · simp only [parse_mountinfo_line, splitOnceOn_eq_none _ _ hsep]
      rfl
    · cases hp : parse_mountinfo_line paths acc l with
      | none => rfl
      | some acc' => exact ih acc' ⟨line, hmem', hsep⟩

/-! ## Claim C10 -/

/-- C10: `parse_cgroup_mountinfo` is not total: for every mountinfo
content with at least one line (in `str::lines()` terms) that does not
contain the `" - "` separator, the indexing of the second half
(`parts[1]`) panics — modelled as `none` — for any subsystem path map;
so the absence of that panic requires every line to contain `" - "`. -/
theorem C10_parse_cgroup_mountinfo_panics (content : List Char)
    (paths : List (List Char))
    (h : ∃ line ∈ rustLines content, ¬ MOUNTINFO_SEP <:+: line) :
    parse_cgroup_mountinfo content paths = none := by
  rw [parse_cgroup_mountinfo]
  exact mountinfo_fold_none paths _ [] h

/-- C10 witness: a two-line mountinfo whose second line lacks `" - "`
makes the parse panic even though the first line is well-formed. -/
theorem C10_parse_cgroup_mountinfo_panics_witness :
    parse_cgroup_mountinfo
      (String.toList
        "25 30 0:22 / /sys/fs/cgroup/cpu rw - cgroup cgroup rw,cpu\njunk")
      [String.toList "cpu"] = none :=
  C10_parse_cgroup_mountinfo_panics _ _
    ⟨String.toList "junk", by decide, by decide⟩


/-! ## Cpuset list → bitmask (`src/systemd/cpuset.rs`)

The `bit_vec::BitVec` is embedded as a `List Bool` indexed like the
crate's bit indices; `to_bytes` packs bit `8b + j` into byte `b` at
weight `2^(7−j)` (bit 0 of the vec is the MSB of byte 0). -/

/-- `BYTE_IN_BITS` from `src/systemd/cpuset.rs`. -/
def BYTE_IN_BITS : Nat := 8

/-- The `local_idx` closure of `convert_list_to_mask`:
`index / 8 * 8 + 7 - index % 8` (usize arithmetic; the `+ 7` dominates
the subtracted `index % 8`, so no underflow). -/
def local_idx (index : Nat) : Nat :=
  index / BYTE_IN_BITS * BYTE_IN_BITS + 7 - index % BYTE_IN_BITS

/-- `usize::from_str`: an optional leading '+', then one or more ASCII
digits; values of 2^64 or more are an overflow error. -/
def parseUsize (s : List Char) : Option Nat :=
  let t :=
    match s with
    | [] => ([] : List Char)
    | c :: rest => if c = '+' then rest else c :: rest
  if t = [] ∨ ¬ (t.all Char.isDigit) then none
  else
    let v := t.foldl (fun a c => a * 10 + (c.toNat - 48)) 0
    if v < U64_SIZE then some v else none

/-- The `while i >= bit_vec.len() { bit_vec.grow(8, false) }` loops of
`convert_list_to_mask`, fueled: each pass adds 8 bits, so `i / 8 + 1`
passes always suffice. -/
def growToAux : Nat → List Bool → Nat → List Bool
  | 0, bv, _ => bv
  | f + 1, bv, i =>
    if bv.length ≤ i then growToAux f (bv ++ List.replicate 8 false) i
    else bv

/-- The grow loop with its fuel instantiated. -/
def growTo (bv : List Bool) (i : Nat) : List Bool :=
  growToAux (i / 8 + 1) bv i

/-- One `bit_vec.set(local_idx(idx), true)` call.  The grow loops keep
`local_idx idx` in bounds at every call site, so `List.set`'s
out-of-range no-op is never exercised (bit-vec's `set` would panic). -/
def setBit (bv : List Bool) (idx : Nat) : List Bool :=
  bv.set (local_idx idx) true

/-- The single-index arm (`range.len() == 1`) of the part loop. -/
def applySingle (bv : List Bool) (left : Nat) : List Bool :=
  setBit (growTo bv left) left

/-- The range arm (`range.len() == 2`): grow for `right`, then set each
index in `left..=right`. -/
def applyRange (bv : List Bool) (left right : Nat) : List Bool :=
  (List.range' left (right + 1 - left)).foldl setBit (growTo bv right)

/-- The `for part1 in list.split(',')` loop of `convert_list_to_mask`. -/
def convertParts (bv : List Bool) :
    List (List Char) → Except SdError (List Bool)
  | [] => .ok bv
  | part :: rest =>
    match splitOnChar '-' part with
    | [r0] =>
      match parseUsize r0 with
      | none => .error .InvalidArgument
      | some left => convertParts (applySingle bv left) rest
    | [r0, r1] =>
      match parseUsize r0, parseUsize r1 with
      | some left, some right =>
        convertParts (applyRange bv left right) rest
      | _, _ => .error .InvalidArgument
    | _ => .error .InvalidArgument

/-- The value of a little-endian bit list. -/
def natOfLsbBits : List Bool → Nat
  | [] => 0
  | b :: bs => (if b then 1 else 0) + 2 * natOfLsbBits bs

/-- Byte `b` of bit-vec `to_bytes`: its `2^j` bit is vec bit
`8b + (7 − j)`; bits past the end of the vec read as false. -/
def byteAt (bv : List Bool) (b : Nat) : Nat :=
  natOfLsbBits ((List.range 8).map fun j => bv.getD (8 * b + (7 - j)) false)

/-- bit-vec `to_bytes`. -/
def toBytes (bv : List Bool) : List Nat :=
  (List.range ((bv.length + 7) / 8)).map (byteAt bv)

/-- `convert_list_to_mask` from `src/systemd/cpuset.rs`: bytes as `Nat`
values below 256, reversed at the end as the source does. -/
def convert_list_to_mask (list : List Char) : Except SdError (List Nat) :=
  match convertParts (List.replicate 8 false) (splitOnChar ',' list) with
  | .error e => .error e
  | .ok bv => .ok (toBytes bv).reverse

/-! Specification-side vocabulary for claim C6. -/

/-- A well-formed cpuset token: a single CPU index or a hyphen range. -/
inductive CpuTok where
  | single (n : Nat)
  | range (a b : Nat)

/-- The CPUs a token denotes (a reversed range denotes none, as
`left..=right` is then empty). -/
def tokCovers : CpuTok → Nat → Prop
  | .single n, i => i = n
  | .range a b, i => a ≤ i ∧ i ≤ b

/-- The CPUs a token list denotes. -/
def coveredBy (ts : List CpuTok) (i : Nat) : Prop := ∃ t ∈ ts, tokCovers t i

/-- The index that drives storage growth for a token: the single index,
or the right end of a range. -/
def growIdx : CpuTok → Nat
  | .single n => n
  | .range _ b => b

/-- The largest growth-driving index of a token list. -/
def maxGrow (ts : List CpuTok) : Nat :=
  ts.foldl (fun m t => max m (growIdx t)) 0

/-- Both endpoints of the token parse as `usize`. -/
def tokBound : CpuTok → Prop
  | .single n => n < U64_SIZE
  | .range a b => a < U64_SIZE ∧ b < U64_SIZE

def digitChar : Nat → Char
  | 0 => '0' | 1 => '1' | 2 => '2' | 3 => '3' | 4 => '4'
  | 5 => '5' | 6 => '6' | 7 => '7' | 8 => '8' | _ => '9'

/-- Little-endian decimal digits of `n` (empty for 0), fueled. -/
def natCharsLE : Nat → Nat → List Char
  | _, 0 => []
  | 0, _ + 1 => []
  | f + 1, n + 1 => digitChar ((n + 1) % 10) :: natCharsLE f ((n + 1) / 10)

/-- The canonical decimal rendering of `n`. -/
def natChars (n : Nat) : List Char :=
  if n = 0 then ['0'] else (natCharsLE n n).reverse

/-- Rendering of one token, as in `"7"` or `"0-4"`. -/
def renderTok : CpuTok → List Char
  | .single n => natChars n
  | .range a b => natChars a ++ '-' :: natChars b

/-- Comma-separated rendering of a token list. -/
def renderList : List CpuTok → List Char
  | [] => []
  | [t] => renderTok t
  | t :: ts => renderTok t ++ ',' :: renderList ts

/-- Bit `i % 8`, counted from the LSB, of the byte for CPU block
`i / 8` in a mask whose bytes are ordered highest block first. -/
def maskHasCpu (mask : List Nat) (i : Nat) : Bool :=
  if i / 8 < mask.length then
    Nat.testBit (mask.getD (mask.length - 1 - i / 8) 0) (i % 8)
  else false

/-- A malformed comma-separated part: not one or two '-'-separated
numeric tokens. -/
def badPart (p : List Char) : Prop :=
  match splitOnChar '-' p with
  | [r0] => parseUsize r0 = none
  | [r0, r1] => parseUsize r0 = none ∨ parseUsize r1 = none
  | _ => True

/-- The little-endian value of a digit string. -/
def charsValLE : List Char → Nat
  | [] => 0
  | c :: cs => (c.toNat - 48) + 10 * charsValLE cs

theorem digitChar_spec : ∀ d : Nat, d < 10 →
    (digitChar d).isDigit = true ∧ (digitChar d).toNat - 48 = d ∧
    digitChar d ≠ ',' ∧ digitChar d ≠ '-' ∧ digitChar d ≠ '+' := by
  decide

theorem natCharsLE_spec :
    ∀ (f n : Nat), n ≤ f →
      (∀ c ∈ natCharsLE f n, c.isDigit = true) ∧
      charsValLE (natCharsLE f n) = n ∧ (0 < n → natCharsLE f n ≠ []) := by
  intro f
  induction f with
  | zero =>
    intro n hn
    match n, hn with
    | 0, _ => exact ⟨by simp [natCharsLE], rfl, by omega⟩
  | succ f ih =>
    intro n hn
    match n with
    | 0 => exact ⟨by simp [natCharsLE], rfl, by omega⟩
    | m + 1 =>
      have hd := digitChar_spec ((m + 1) % 10) (Nat.mod_lt _ (by norm_num))
      have hrec := ih ((m + 1) / 10) (by omega)
      refine ⟨?_, ?_, fun _ => by simp [natCharsLE]⟩
      · intro c hc
        rw [natCharsLE] at hc
        rcases List.mem_cons.mp hc with rfl | hc
        · exact hd.1
        · exact hrec.1 c hc
      · rw [natCharsLE, charsValLE, hd.2.1, hrec.2.1]
        omega

theorem natChars_digits (n : Nat) :
    ∀ c ∈ natChars n, c.isDigit = true := by
  intro c hc
  rw [natChars] at hc
  split_ifs at hc with h
  · rcases List.mem_singleton.mp hc with rfl
    decide
  · exact (natCharsLE_spec n n (Nat.le_refl n)).1 c (List.mem_reverse.mp hc)

theorem isDigit_ne (c : Char) (h : c.isDigit = true) :
    c ≠ ',' ∧ c ≠ '-' ∧ c ≠ '+' := by
  refine ⟨?_, ?_, ?_⟩ <;> rintro rfl <;> simp at h

theorem natChars_not_mem (n : Nat) :
    ',' ∉ natChars n ∧ '-' ∉ natChars n := by
  constructor <;>
    · intro hmem
      have := isDigit_ne _ (natChars_digits n _ hmem)
      simp at this

theorem foldl_digits_val (l : List Char) :
    ∀ a : Nat,
      l.reverse.foldl (fun a c => a * 10 + (c.toNat - 48)) a =
        a * 10 ^ l.length + charsValLE l := by
  induction l with
  | nil => intro a; simp [charsValLE]
  | cons c cs ih =>
    intro a
    rw [List.reverse_cons, List.foldl_append, ih a, List.foldl_cons,
      List.foldl_nil, charsValLE, List.length_cons, pow_succ]
    ring

theorem parseUsize_natChars (n : Nat) (hn : n < U64_SIZE) :
    parseUsize (natChars n) = some n := by
  rcases Nat.eq_zero_or_pos n with rfl | hpos
  · decide
  · have hspec := natCharsLE_spec n n (Nat.le_refl n)
    have hne : natCharsLE n n ≠ [] := hspec.2.2 hpos
    have hnc : natChars n = (natCharsLE n n).reverse := by
      rw [natChars, if_neg (by omega)]
    rcases hrev : (natCharsLE n n).reverse with _ | ⟨c, cs⟩
    · exact absurd (by simpa using congrArg List.reverse hrev) hne
    · have hcdig : c.isDigit = true :=
        hspec.1 c (List.mem_reverse.mp
          (by rw [hrev]; exact List.mem_cons_self c cs))
      have hall : (c :: cs).all Char.isDigit = true := by
        rw [List.all_eq_true]
        intro x hx
        exact hspec.1 x (List.mem_reverse.mp (by rw [hrev]; exact hx))
      have hval : (c :: cs).foldl (fun a c => a * 10 + (c.toNat - 48)) 0
          = n := by
        rw [← hrev, foldl_digits_val, hspec.2.1]
        ring
      have hplus : ¬(c = '+') := (isDigit_ne c hcdig).2.2
      rw [hnc, hrev]
      simp only [parseUsize, if_neg hplus]
      rw [if_neg (by simp [hall]), hval, if_pos hn]

theorem getD_false_append_replicate (bv : List Bool) (m k : Nat) :
    (bv ++ List.replicate m false).getD k false = bv.getD k false := by
  rw [List.getD_eq_getElem?_getD, List.getD_eq_getElem?_getD]
  rcases Nat.lt_or_ge k bv.length with h | h
  · rw [List.getElem?_append_left h]
  · rw [List.getElem?_append_right h, List.getElem?_eq_none h]
    simp only [List.getElem?_replicate]
    split_ifs <;> rfl

theorem getD_false_set (bv : List Bool) (j k : Nat) :
    (bv.set j true).getD k false =
      if k = j ∧ j < bv.length then true else bv.getD k false := by
  simp only [List.getD_eq_getElem?_getD, List.getElem?_set]
  by_cases h1 : j = k
  · subst h1
    by_cases h2 : j < bv.length
    · simp [h2]
    · rw [if_pos rfl, if_neg h2, if_neg (by omega),
        List.getElem?_eq_none (by omega)]
  · rw [if_neg h1, if_neg (by omega)]

theorem local_idx_lt {i n : Nat} (h1 : i < n) (h2 : n % 8 = 0) :
    local_idx i < n := by
  unfold local_idx BYTE_IN_BITS
  omega

theorem local_idx_inj {i j : Nat} (h : local_idx i = local_idx j) :
    i = j := by
  unfold local_idx BYTE_IN_BITS at h
  omega

theorem growToAux_getD (f : Nat) :
    ∀ (bv : List Bool) (i k : Nat),
      (growToAux f bv i).getD k false = bv.getD k false := by
  induction f with
  | zero => intro bv i k; rfl
  | succ f ih =>
    intro bv i k
    rw [growToAux]
    split_ifs
    · rw [ih, getD_false_append_replicate]
    · rfl

theorem growToAux_length (f : Nat) :
    ∀ (bv : List Bool) (i : Nat), bv.length % 8 = 0 →
      i < 8 * f + bv.length →
      (growToAux f bv i).length = max bv.length (8 * (i / 8 + 1)) := by
  induction f with
  | zero =>
    intro bv i h8 hf
    simp only [growToAux]
    omega
  | succ f ih =>
    intro bv i h8 hf
    rw [growToAux]
    split_ifs with hle
    · rw [ih _ _ (by simp; omega) (by simp; omega)]
      simp only [List.length_append, List.length_replicate]
      omega
    · omega

theorem growTo_length (bv : List Bool) (i : Nat) (h8 : bv.length % 8 = 0) :
    (growTo bv i).length = max bv.length (8 * (i / 8 + 1)) :=
  growToAux_length _ bv i h8 (by omega)

theorem growTo_getD (bv : List Bool) (i k : Nat) :
    (growTo bv i).getD k false = bv.getD k false := growToAux_getD _ bv i k

theorem setBit_length (bv : List Bool) (idx : Nat) :
    (setBit bv idx).length = bv.length := List.length_set ..

theorem setBit_getD (bv : List Bool) (idx i : Nat)
    (hin : local_idx idx < bv.length) :
    (setBit bv idx).getD (local_idx i) false =
      if i = idx then true else bv.getD (local_idx i) false := by
  rw [setBit, getD_false_set]
  by_cases h : i = idx
  · subst h; rw [if_pos ⟨rfl, hin⟩, if_pos rfl]
  · rw [if_neg (fun hh => h (local_idx_inj hh.1)), if_neg h]

theorem applySingle_length (bv : List Bool) (left : Nat)
    (h8 : bv.length % 8 = 0) :
    (applySingle bv left).length = max bv.length (8 * (left / 8 + 1)) := by
  rw [applySingle, setBit_length, growTo_length _ _ h8]

theorem applySingle_getD (bv : List Bool) (left i : Nat)
    (h8 : bv.length % 8 = 0) :
    (applySingle bv left).getD (local_idx i) false =
      if i = left then true else bv.getD (local_idx i) false := by
  have hlen : (growTo bv left).length % 8 = 0 := by
    rw [growTo_length _ _ h8]; omega
  have hcov : left < (growTo bv left).length := by
    rw [growTo_length _ _ h8]; omega
  rw [applySingle, setBit_getD _ _ _ (local_idx_lt hcov hlen), growTo_getD]

theorem foldl_setBit_length (idxs : List Nat) :
    ∀ bv, (idxs.foldl setBit bv).length = bv.length := by
  induction idxs with
  | nil => intro bv; rfl
  | cons x xs ih => intro bv; rw [List.foldl_cons, ih, setBit_length]

theorem foldl_setBit_getD (idxs : List Nat) :
    ∀ (bv : List Bool) (i : Nat),
      (∀ x ∈ idxs, local_idx x < bv.length) →
      (idxs.foldl setBit bv).getD (local_idx i) false =
        if i ∈ idxs then true else bv.getD (local_idx i) false := by
  induction idxs with
  | nil => intro bv i _; simp
  | cons x xs ih =>
    intro bv i hin
    rw [List.foldl_cons, ih _ _ (fun y hy => by
      rw [setBit_length]; exact hin y (List.mem_cons_of_mem _ hy))]
    by_cases hx : i ∈ xs
    · simp [hx, List.mem_cons]
    · rw [if_neg hx, setBit_getD _ _ _ (hin x (List.mem_cons_self _ _))]
      by_cases hix : i = x
      · simp [hix]
      · rw [if_neg hix, if_neg (by simp [List.mem_cons, hix, hx])]

theorem applyRange_length (bv : List Bool) (l r : Nat)
    (h8 : bv.length % 8 = 0) :
    (applyRange bv l r).length = max bv.length (8 * (r / 8 + 1)) := by
  rw [applyRange, foldl_setBit_length, growTo_length _ _ h8]

theorem applyRange_getD (bv : List Bool) (l r i : Nat)
    (h8 : bv.length % 8 = 0) :
    (applyRange bv l r).getD (local_idx i) false =
      if l ≤ i ∧ i ≤ r then true else bv.getD (local_idx i) false := by
  have hlen8 : (growTo bv r).length % 8 = 0 := by
    rw [growTo_length _ _ h8]; omega
  have hcov : ∀ x ∈ List.range' l (r + 1 - l),
      local_idx x < (growTo bv r).length := by
    intro x hx
    rw [List.mem_range'_1] at hx
    refine local_idx_lt ?_ hlen8
    rw [growTo_length _ _ h8]
    omega
  rw [applyRange, foldl_setBit_getD _ _ _ hcov, growTo_getD]
  by_cases h : l ≤ i ∧ i ≤ r
  · rw [if_pos (by rw [List.mem_range'_1]; omega), if_pos h]
  · rw [if_neg (by rw [List.mem_range'_1]; omega), if_neg h]

instance instDecidableTokCovers : ∀ (t : CpuTok) (i : Nat),
    Decidable (tokCovers t i)
  | .single n, i => inferInstanceAs (Decidable (i = n))
  | .range a b, i => inferInstanceAs (Decidable (a ≤ i ∧ i ≤ b))

instance instDecidableCoveredBy (ts : List CpuTok) (i : Nat) :
    Decidable (coveredBy ts i) :=
  inferInstanceAs (Decidable (∃ t ∈ ts, tokCovers t i))

/-- The bit-vec update a well-formed token performs. -/
def applyTok (bv : List Bool) : CpuTok → List Bool
  | .single n => applySingle bv n
  | .range a b => applyRange bv a b

/-- The bit-vec after processing every token in turn. -/
def applyAll (bv : List Bool) (ts : List CpuTok) : List Bool :=
  ts.foldl applyTok bv

theorem applyTok_length (bv : List Bool) (t : CpuTok)
    (h8 : bv.length % 8 = 0) :
    (applyTok bv t).length = max bv.length (8 * (growIdx t / 8 + 1)) := by
  cases t with
  | single n => exact applySingle_length bv n h8
  | range a b => exact applyRange_length bv a b h8

theorem applyTok_getD (bv : List Bool) (t : CpuTok) (i : Nat)
    (h8 : bv.length % 8 = 0) :
    (applyTok bv t).getD (local_idx i) false =
      if tokCovers t i then true else bv.getD (local_idx i) false := by
  cases t with
  | single n => exact applySingle_getD bv n i h8
  | range a b => exact applyRange_getD bv a b i h8

theorem applyAll_length :
    ∀ (ts : List CpuTok) (bv : List Bool) (m : Nat),
      bv.length = 8 * (m / 8 + 1) →
      (applyAll bv ts).length =
        8 * ((ts.foldl (fun m t => max m (growIdx t)) m) / 8 + 1) := by
  intro ts
  induction ts with
  | nil => intro bv m h; simpa [applyAll] using h
  | cons t ts ih =>
    intro bv m h
    have h8 : bv.length % 8 = 0 := by omega
    have hstep : (applyTok bv t).length = 8 * ((max m (growIdx t)) / 8 + 1) :=
      by rw [applyTok_length _ _ h8, h]; omega
    simpa [applyAll, List.foldl_cons] using ih (applyTok bv t) _ hstep

theorem applyAll_getD :
    ∀ (ts : List CpuTok) (bv : List Bool) (i : Nat), bv.length % 8 = 0 →
      (applyAll bv ts).getD (local_idx i) false =
        if coveredBy ts i then true else bv.getD (local_idx i) false := by
  intro ts
  induction ts with
  | nil => intro bv i _; simp [applyAll, coveredBy]
  | cons t ts ih =>
    intro bv i h8
    have h8' : (applyTok bv t).length % 8 = 0 := by
      rw [applyTok_length _ _ h8]; omega
    have hstep := applyTok_getD bv t i h8
    have hcov : coveredBy (t :: ts) i ↔ tokCovers t i ∨ coveredBy ts i := by
      simp [coveredBy, List.exists_mem_cons_iff]
    rw [show applyAll bv (t :: ts) = applyAll (applyTok bv t) ts from rfl,
      ih _ _ h8', hstep]
    by_cases h1 : tokCovers t i <;> by_cases h2 : coveredBy ts i <;>
      simp [h1, h2, hcov]

theorem natOfLsbBits_testBit (bs : List Bool) :
    ∀ j : Nat, (natOfLsbBits bs).testBit j = bs.getD j false := by
  induction bs with
  | nil => intro j; simp [natOfLsbBits]
  | cons b bs ih =>
    intro j
    cases j with
    | zero =>
      rw [natOfLsbBits, Nat.testBit_zero]
      cases b <;> simp
    | succ j =>
      rw [natOfLsbBits, Nat.testBit_add_one]
      have h2 : ((if b then 1 else 0) + 2 * natOfLsbBits bs) / 2 =
          natOfLsbBits bs := by cases b <;> simp <;> omega
      rw [h2, ih j]
      rfl

theorem getD_map_range {α : Type} (f : Nat → α) (n j : Nat) (d : α) :
    ((List.range n).map f).getD j d = if j < n then f j else d := by
  rcases Nat.lt_or_ge j n with h | h
  · rw [List.getD_eq_getElem?_getD,
      List.getElem?_eq_getElem (by simpa using h)]
    simp [h]
  · rw [List.getD_eq_getElem?_getD, List.getElem?_eq_none (by simpa using h)]
    rw [if_neg (by omega)]
    rfl

theorem byteAt_testBit (bv : List Bool) (b j : Nat) (hj : j < 8) :
    (byteAt bv b).testBit j = bv.getD (8 * b + (7 - j)) false := by
  rw [byteAt, natOfLsbBits_testBit, getD_map_range, if_pos hj]

theorem toBytes_length (bv : List Bool) :
    (toBytes bv).length = (bv.length + 7) / 8 := by
  simp [toBytes]

theorem toBytes_getD (bv : List Bool) (b : Nat)
    (hb : b < (bv.length + 7) / 8) :
    (toBytes bv).getD b 0 = byteAt bv b := by
  rw [toBytes, getD_map_range, if_pos hb]

theorem getD_reverse (l : List Nat) (k : Nat) (hk : k < l.length) :
    l.reverse.getD k 0 = l.getD (l.length - 1 - k) 0 := by
  rw [List.getD_eq_getElem?_getD, List.getD_eq_getElem?_getD,
    List.getElem?_eq_getElem (by simpa using hk),
    List.getElem?_eq_getElem (by omega)]
  simp [List.getElem_reverse]

theorem renderTok_no_comma (t : CpuTok) : ',' ∉ renderTok t := by
  cases t with
  | single n => exact (natChars_not_mem n).1
  | range a b =>
    intro h
    rcases List.mem_append.mp h with h | h
    · exact (natChars_not_mem a).1 h
    · rcases List.mem_cons.mp h with h | h
      · simp at h
      · exact (natChars_not_mem b).1 h

theorem splitDash_single (n : Nat) :
    splitOnChar '-' (renderTok (CpuTok.single n)) = [natChars n] :=
  splitOnChar_of_not_mem '-' (natChars n) (natChars_not_mem n).2

theorem splitDash_range (a b : Nat) :
    splitOnChar '-' (renderTok (CpuTok.range a b)) =
      [natChars a, natChars b] := by
  rw [renderTok, splitOnChar_append _ _ _ (natChars_not_mem a).2,
    splitOnChar_of_not_mem _ _ (natChars_not_mem b).2]

theorem splitOnChar_renderList :
    ∀ ts : List CpuTok, ts ≠ [] →
      splitOnChar ',' (renderList ts) = ts.map renderTok := by
  intro ts
  induction ts with
  | nil => intro h; exact absurd rfl h
  | cons t ts ih =>
    intro _
    cases ts with
    | nil =>
      exact splitOnChar_of_not_mem ',' (renderTok t) (renderTok_no_comma t)
    | cons u us =>
      show splitOnChar ',' (renderTok t ++ ',' :: renderList (u :: us)) = _
      rw [splitOnChar_append _ _ _ (renderTok_no_comma t), ih (by simp)]
      rfl

theorem convertParts_render :
    ∀ (ts : List CpuTok) (bv : List Bool), (∀ t ∈ ts, tokBound t) →
      convertParts bv (ts.map renderTok) = .ok (applyAll bv ts) := by
  intro ts
  induction ts with
  | nil => intro bv _; rfl
  | cons t ts ih =>
    intro bv hb
    have hbt := hb t (List.mem_cons_self _ _)
    have hrest : ∀ x ∈ ts, tokBound x :=
      fun x hx => hb x (List.mem_cons_of_mem _ hx)
    cases t with
    | single n =>
      have hs := splitDash_single n
      have hp := parseUsize_natChars n hbt
      simp only [List.map_cons, convertParts, hs, hp]
      exact ih _ hrest
    | range a b =>
      have hs := splitDash_range a b
      have hpa := parseUsize_natChars a hbt.1
      have hpb := parseUsize_natChars b hbt.2
      simp only [List.map_cons, convertParts, hs, hpa, hpb]
      exact ih _ hrest

theorem badParts_error :
    ∀ (parts : List (List Char)) (bv : List Bool),
      (∃ p ∈ parts, badPart p) →
      convertParts bv parts = .error .InvalidArgument := by
  intro parts
  induction parts with
  | nil =>
    intro bv h
    obtain ⟨p, hp, _⟩ := h
    cases hp
  | cons q rest ih =>
    intro bv h
    by_cases hq : badPart q
    · cases hsp : splitOnChar '-' q with
      | nil => simp [convertParts, hsp]
      | cons r0 tail =>
        cases tail with
        | nil =>
          simp only [badPart, hsp] at hq
          simp [convertParts, hsp, hq]
        | cons r1 tail2 =>
          cases tail2 with
          | nil =>
            simp only [badPart, hsp] at hq
            rcases hq with hq | hq
            · simp [convertParts, hsp, hq]
            · cases hp0 : parseUsize r0 with
              | none => simp [convertParts, hsp, hp0]
              | some l => simp [convertParts, hsp, hp0, hq]
          | cons r2 tail3 => simp [convertParts, hsp]
    · obtain ⟨p, hp, hbad⟩ := h
      rcases List.mem_cons.mp hp with rfl | hp'
      · exact absurd hbad hq
      · cases hsp : splitOnChar '-' q with
        | nil => exact absurd (by simp [badPart, hsp]) hq
        | cons r0 tail =>
          cases tail with
          | nil =>
            cases hp0 : parseUsize r0 with
            | none => exact absurd (by simp [badPart, hsp, hp0]) hq
            | some l =>
              simp only [convertParts, hsp, hp0]
              exact ih _ ⟨p, hp', hbad⟩
          | cons r1 tail2 =>
            cases tail2 with
            | nil =>
              cases hp0 : parseUsize r0 with
              | none => exact absurd (by simp [badPart, hsp, hp0]) hq
              | some l =>
                cases hp1 : parseUsize r1 with
                | none => exact absurd (by simp [badPart, hsp, hp0, hp1]) hq
                | some r =>
                  simp only [convertParts, hsp, hp0, hp1]
                  exact ih _ ⟨p, hp', hbad⟩
            | cons r2 tail3 => exact absurd (by simp [badPart, hsp]) hq

theorem le_maxGrow (ts : List CpuTok) (t : CpuTok) (ht : t ∈ ts) :
    growIdx t ≤ maxGrow ts := by
  have aux : ∀ (ts : List CpuTok) (m : Nat),
      m ≤ ts.foldl (fun m t => max m (growIdx t)) m ∧
      ∀ t ∈ ts, growIdx t ≤ ts.foldl (fun m t => max m (growIdx t)) m := by
    intro ts
    induction ts with
    | nil => intro m; exact ⟨Nat.le_refl m, by simp⟩
    | cons u us ih =>
      intro m
      constructor
      · exact Nat.le_trans (Nat.le_max_left m (growIdx u)) (ih _).1
      · intro x hx
        rcases List.mem_cons.mp hx with rfl | hx'
        · exact Nat.le_trans (Nat.le_max_right m (growIdx x)) (ih _).1
        · exact (ih _).2 x hx'
  exact (aux ts 0).2 t ht

theorem getD_false_replicate (m k : Nat) :
    (List.replicate m false).getD k false = false := by
  rw [List.getD_eq_getElem?_getD]
  rcases Nat.lt_or_ge k m with h | h
  · rw [List.getElem?_eq_getElem (by simpa using h)]
    simp
  · rw [List.getElem?_eq_none (by simpa using h)]
    rfl

/-! ## Claim C6 -/

/-- C6: `convert_list_to_mask` maps a CPU list of single indices and
hyphen ranges (comma separated) to a byte array in which CPU `i`
occupies bit `i % 8` counted from the LSB of the byte for its 8-CPU
block and no other bit is set; storage grows in whole bytes with the
largest index (one byte per started block of 8); the accumulated buffer
is reversed so the highest-index byte comes first; `"0-4,9"` yields
`[0b00000010, 0b00011111]`; and any part that is non-numeric, a
three-part range, or empty (as left by a trailing comma) fails with
`InvalidArgument`. -/
theorem C6_convert_list_to_mask :
    (∀ ts : List CpuTok, ts ≠ [] → (∀ t ∈ ts, tokBound t) →
      ∃ mask, convert_list_to_mask (renderList ts) = .ok mask ∧
        mask.length = maxGrow ts / 8 + 1 ∧
        ∀ i : Nat, maskHasCpu mask i = true ↔ coveredBy ts i) ∧
    convert_list_to_mask (String.toList "0-4,9") = .ok [2, 31] ∧
    (∀ s : List Char, (∃ p ∈ splitOnChar ',' s, badPart p) →
      convert_list_to_mask s = .error .InvalidArgument) := by
  refine ⟨?_, rfl, ?_⟩
  · intro ts hne hb
    have hconv : convert_list_to_mask (renderList ts) =
        .ok (toBytes (applyAll (List.replicate 8 false) ts)).reverse := by
      rw [convert_list_to_mask, splitOnChar_renderList ts hne,
        convertParts_render ts _ hb]
    set bvF := applyAll (List.replicate 8 false) ts with hbvF
    have hlen : bvF.length = 8 * (maxGrow ts / 8 + 1) := by
      have := applyAll_length ts (List.replicate 8 false) 0 (by simp)
      simpa [maxGrow] using this
    have htb_len : (toBytes bvF).length = maxGrow ts / 8 + 1 := by
      rw [toBytes_length]; omega
    have hmask_len : ((toBytes bvF).reverse).length = maxGrow ts / 8 + 1 :=
      by rw [List.length_reverse]; exact htb_len
    refine ⟨(toBytes bvF).reverse, hconv, hmask_len, ?_⟩
    intro i
    have hcontent : bvF.getD (local_idx i) false =
        if coveredBy ts i then true else false := by
      rw [hbvF, applyAll_getD ts _ i (by simp)]
      by_cases hc : coveredBy ts i
      · simp [hc]
      · rw [if_neg hc, if_neg hc, getD_false_replicate]
    rw [maskHasCpu]
    by_cases hi : i / 8 < ((toBytes bvF).reverse).length
    · rw [if_pos hi]
      have hL := List.length_reverse (toBytes bvF)
      have hrev : ((toBytes bvF).reverse).getD
          (((toBytes bvF).reverse).length - 1 - i / 8) 0 =
          (toBytes bvF).getD (i / 8) 0 := by
        rw [getD_reverse _ _ (by omega)]
        congr 1
        omega
      rw [hrev, toBytes_getD _ _ (by omega),
        byteAt_testBit _ _ _ (Nat.mod_lt i (by norm_num))]
      have hidx : 8 * (i / 8) + (7 - i % 8) = local_idx i := by
        unfold local_idx BYTE_IN_BITS
        omega
      rw [hidx, hcontent]
      by_cases hc : coveredBy ts i <;> simp [hc]
    · rw [if_neg hi]
      simp only [Bool.false_eq_true, false_iff]
      intro hc
      obtain ⟨t, ht, hcov⟩ := hc
      have hg := le_maxGrow ts t ht
      have hle : i ≤ maxGrow ts := by
        cases t with
        | single n =>
          have hin : i = n := hcov
          simp only [growIdx] at hg
          omega
        | range a b =>
          obtain ⟨_, h2⟩ := hcov
          simp only [growIdx] at hg
          omega
      rw [hmask_len] at hi
      omega
  · intro s hbad
    rw [convert_list_to_mask, badParts_error _ _ hbad]

/-- C6 witness: at the token list for `"0-4,9"` the produced mask
`[2, 31]` has the bit for CPU 9 set and the bit for CPU 6 clear. -/
theorem C6_convert_list_to_mask_witness :
    maskHasCpu [2, 31] 9 = true ∧ maskHasCpu [2, 31] 6 = false := by
  have hbd : ∀ t ∈ [CpuTok.range 0 4, CpuTok.single 9], tokBound t := by
    intro t ht
    rcases List.mem_cons.mp ht with rfl | ht2
    · exact ⟨by norm_num [U64_SIZE], by norm_num [U64_SIZE]⟩
    · rcases List.mem_cons.mp ht2 with rfl | ht3
      · show 9 < U64_SIZE
        norm_num [U64_SIZE]
      · cases ht3
  obtain ⟨mask, hok, _, hbits⟩ :=
    C6_convert_list_to_mask.1 [CpuTok.range 0 4, CpuTok.single 9]
      (by simp) hbd
  have hrl : renderList [CpuTok.range 0 4, CpuTok.single 9] =
      String.toList "0-4,9" := rfl
  rw [hrl, C6_convert_list_to_mask.2.1] at hok
  have hmask : mask = [2, 31] := by
    injection hok with h
    exact h.symm
  subst hmask
  constructor
  · exact (hbits 9).mpr ⟨CpuTok.single 9, by simp, rfl⟩
  · cases hmc : maskHasCpu [2, 31] 6 with
    | false => rfl
    | true =>
      exfalso
      obtain ⟨t, ht, hcov⟩ := (hbits 6).mp hmc
      rcases List.mem_cons.mp ht with rfl | ht2
      · obtain ⟨_, h2⟩ := hcov
        omega
      · rcases List.mem_cons.mp ht2 with rfl | ht3
        · have : (6 : Nat) = 9 := hcov
          omega
        · cases ht3
